import Mathlib

/-!
Shallow embedding of the adaptive-solver orchestration core of `solverbase.py`
(class `SolverBase`).  Real-valued quantities are modelled over `ℚ` (the code's
arithmetic on them is exact field arithmetic plus `divmod`, `int` truncation and
comparisons); Python `int()` on a nonnegative float is `Int.floor`, and on a
general value truncates toward zero.  Each definition mirrors one method of the
source class.
-/

namespace ASP

/-- Machine epsilon constant `DOLFIN_EPS` of the dolfin backend (3.0e-16),
used by `adjust_dt` as the remainder tolerance. -/
def DOLFIN_EPS : ℚ := 3 / 10 ^ 16

/-- Python `divmod(a, b)`: quotient `⌊a / b⌋` and remainder `a - ⌊a / b⌋ * b`. -/
def pydivmod (a b : ℚ) : ℤ × ℚ := (⌊a / b⌋, a - (⌊a / b⌋ : ℚ) * b)

/-- Python `int(q)`: truncation toward zero. -/
def pyint (q : ℚ) : ℤ := if 0 ≤ q then ⌊q⌋ else -⌊-q⌋

/-- The remainder of `a` modulo `b` (Python `a % b` for `b > 0`). -/
def fmod (a b : ℚ) : ℚ := a - b * (⌊a / b⌋ : ℚ)

/-- `SolverBase.adjust_dt(t0, T, k)`: `d, r = divmod(T - t0, k)`; if
`r > DOLFIN_EPS` the step becomes `(T - t0) / (d + 1)`, otherwise it is
returned unchanged. -/
def adjust_dt (t0 T k : ℚ) : ℚ :=
  let dr := pydivmod (T - t0) k
  if DOLFIN_EPS < dr.2 then (T - t0) / ((dr.1 : ℚ) + 1) else k

/-- On positive inputs the `pydivmod` remainder is nonnegative and below the
divisor. -/
theorem pydivmod_rem_bounds (a b : ℚ) (_ha : 0 < a) (hb : 0 < b) :
    0 ≤ (pydivmod a b).2 ∧ (pydivmod a b).2 < b := by
  unfold pydivmod
  constructor
  · have h := Int.sub_one_lt_floor (a / b)
    have h2 : (⌊a / b⌋ : ℚ) ≤ a / b := Int.floor_le _
    have : (⌊a / b⌋ : ℚ) * b ≤ a := by
      calc (⌊a / b⌋ : ℚ) * b ≤ (a / b) * b := by
            exact mul_le_mul_of_nonneg_right h2 (le_of_lt hb)
        _ = a := div_mul_cancel₀ a (ne_of_gt hb)
    simpa using sub_nonneg.mpr this
  · have h : a / b - 1 < (⌊a / b⌋ : ℚ) := Int.sub_one_lt_floor (a / b)
    have : a - b < (⌊a / b⌋ : ℚ) * b := by
      have := mul_lt_mul_of_pos_right h hb
      calc a - b = (a / b - 1) * b := by field_simp
        _ < (⌊a / b⌋ : ℚ) * b := this
    simpa using sub_lt_iff_lt_add'.mpr (by linarith)

/-- The quotient returned by `pydivmod` on positive inputs is nonnegative. -/
theorem pydivmod_quot_nonneg (a b : ℚ) (ha : 0 < a) (hb : 0 < b) :
    0 ≤ (pydivmod a b).1 := by
  unfold pydivmod
  exact Int.floor_nonneg.mpr (le_of_lt (div_pos ha hb))

/-- The adjusted step is positive whenever `t0 < T` and `0 < k`. -/
theorem adjust_dt_pos (t0 T k : ℚ) (hT : t0 < T) (hk : 0 < k) :
    0 < adjust_dt t0 T k := by
  unfold adjust_dt
  have hA : 0 < T - t0 := by linarith
  have hd := pydivmod_quot_nonneg (T - t0) k hA hk
  by_cases h : DOLFIN_EPS < (pydivmod (T - t0) k).2
  · simp only [if_pos h]
    apply div_pos hA
    have : (0 : ℚ) ≤ ((pydivmod (T - t0) k).1 : ℚ) := by exact_mod_cast hd
    linarith
  · simp only [if_neg h]; exact hk

/-- After adjustment the time interval is divided with remainder at most
`DOLFIN_EPS`: in the adjusting branch the remainder is exactly zero, in the
other branch it was already within tolerance. -/
theorem adjust_dt_rem (t0 T k : ℚ) (hT : t0 < T) (hk : 0 < k) :
    fmod (T - t0) (adjust_dt t0 T k) ≤ DOLFIN_EPS := by
  have hA : 0 < T - t0 := by linarith
  have hd0 : 0 ≤ (pydivmod (T - t0) k).1 := pydivmod_quot_nonneg _ _ hA hk
  unfold adjust_dt fmod
  by_cases h : DOLFIN_EPS < (pydivmod (T - t0) k).2
  · simp only [if_pos h]
    set d : ℤ := (pydivmod (T - t0) k).1 with hd
    have hdpos : (0 : ℚ) < (d : ℚ) + 1 := by
      have : (0 : ℚ) ≤ (d : ℚ) := by exact_mod_cast hd0
      linarith
    have hne : T - t0 ≠ 0 := ne_of_gt hA
    have hq : (T - t0) / ((T - t0) / ((d : ℚ) + 1)) = (d : ℚ) + 1 := by
      field_simp
    rw [hq]
    have hcast : ((d : ℚ) + 1) = ((d + 1 : ℤ) : ℚ) := by push_cast; ring
    rw [hcast, Int.floor_intCast]
    have hmul : (T - t0) / ((d + 1 : ℤ) : ℚ) * ((d + 1 : ℤ) : ℚ) = T - t0 := by
      push_cast
      field_simp
    rw [hmul]
    simp [DOLFIN_EPS]
    norm_num
  · simp only [if_neg h]
    push_neg at h
    unfold pydivmod at h
    have := mul_comm (((⌊(T - t0) / k⌋ : ℤ) : ℚ)) k
    linarith

/-- C7: for all `T > t0` and `k > 0`, `SolverBase.adjust_dt` returns a step
`k'` with `k' ≤ k` whose remainder `(T - t0) mod k'` is below the small
tolerance `10 ^ (-15)` (it is exactly zero whenever the step was changed). -/
theorem adjust_dt_spec (t0 T k : ℚ) (hT : t0 < T) (hk : 0 < k) :
    adjust_dt t0 T k ≤ k ∧ fmod (T - t0) (adjust_dt t0 T k) < 1 / 10 ^ 15 := by
  have hA : 0 < T - t0 := by linarith
  have hrem := adjust_dt_rem t0 T k hT hk
  refine ⟨?_, lt_of_le_of_lt hrem (by norm_num [DOLFIN_EPS])⟩
  unfold adjust_dt
  by_cases h : DOLFIN_EPS < (pydivmod (T - t0) k).2
  · simp only [if_pos h]
    have hb := pydivmod_rem_bounds (T - t0) k hA hk
    have hd0 : 0 ≤ (pydivmod (T - t0) k).1 := pydivmod_quot_nonneg _ _ hA hk
    set d : ℤ := (pydivmod (T - t0) k).1 with hd
    have hdpos : (0 : ℚ) < (d : ℚ) + 1 := by
      have : (0 : ℚ) ≤ (d : ℚ) := by exact_mod_cast hd0
      linarith
    have hrk : T - t0 - (d : ℚ) * k < k := by
      have h2 := hb.2
      unfold pydivmod at h2
      have := mul_comm (((⌊(T - t0) / k⌋ : ℤ) : ℚ)) k
      simp only [pydivmod, hd] at h2 ⊢
      linarith
    have : T - t0 < ((d : ℚ) + 1) * k := by ring_nf; ring_nf at hrk; linarith
    exact le_of_lt ((div_lt_iff₀ hdpos).mpr (by linarith [mul_comm k ((d : ℚ) + 1)]))
  · simp only [if_neg h]; exact le_refl k

/-- Witness for C7 at `t0 = 0`, `T = 1`, `k = 3/10`: the hypotheses hold and
the adjusted step is `1/4`, four even steps. -/
theorem adjust_dt_spec_witness :
    (0 : ℚ) < 1 ∧ (0 : ℚ) < 3 / 10 ∧
      (adjust_dt 0 1 (3 / 10) ≤ 3 / 10 ∧
        fmod (1 - 0) (adjust_dt 0 1 (3 / 10)) < 1 / 10 ^ 15) ∧
      adjust_dt 0 1 (3 / 10) = 1 / 4 :=
  ⟨by norm_num, by norm_num, adjust_dt_spec 0 1 (3 / 10) (by norm_num) (by norm_num),
    by norm_num [adjust_dt, pydivmod, DOLFIN_EPS]⟩

/-- C10: `adjust_dt` is idempotent: the step it returns divides the interval
with remainder within `DOLFIN_EPS`, so adjusting a second time changes
nothing. -/
theorem adjust_dt_idem (t0 T k : ℚ) (hT : t0 < T) (hk : 0 < k) :
    adjust_dt t0 T (adjust_dt t0 T k) = adjust_dt t0 T k := by
  have hA : 0 < T - t0 := by linarith
  have hk' : 0 < adjust_dt t0 T k := adjust_dt_pos t0 T k hT hk
  have hrem := adjust_dt_rem t0 T k hT hk
  have hrem2 : (pydivmod (T - t0) (adjust_dt t0 T k)).2 ≤ DOLFIN_EPS := by
    unfold pydivmod
    unfold fmod at hrem
    have := mul_comm (((⌊(T - t0) / adjust_dt t0 T k⌋ : ℤ) : ℚ)) (adjust_dt t0 T k)
    linarith
  conv_lhs => rw [adjust_dt]
  rw [if_neg (not_lt.mpr hrem2)]

/-- Witness for C10 at `t0 = 0`, `T = 1`, `k = 3/10`. -/
theorem adjust_dt_idem_witness :
    (0 : ℚ) < 1 ∧ (0 : ℚ) < 3 / 10 ∧
      adjust_dt 0 1 (adjust_dt 0 1 (3 / 10)) = adjust_dt 0 1 (3 / 10) :=
  ⟨by norm_num, by norm_num, adjust_dt_idem 0 1 (3 / 10) (by norm_num) (by norm_num)⟩

/-- `SolverBase.condition(ei, m, m_)`: the default stopping metric, computed
from the error-indicator vector as `abs(sum(ei.vector()))`. -/
def condition (ei : List ℚ) : ℚ := |ei.sum|

/-- The stopping metric the spec describes, `sum(|indicator_field|)`, as the
code's own max-iterations warning message also words it. -/
def sum_abs (ei : List ℚ) : ℚ := (ei.map (fun x => |x|)).sum

/-- C1: on the indicator field `[1, -1]` the code's `condition` returns
`|1 + (-1)| = 0` while the documented metric `sum(|indicator_field|)` is `2`:
`condition` computes the absolute value of the sum, not the sum of absolute
values, contradicting the warning text printed in `SolverBase.adaptivity`. -/
theorem condition_not_sum_abs :
    condition [1, -1] = 0 ∧ sum_abs [1, -1] = 2 ∧
      condition [1, -1] ≠ sum_abs [1, -1] := by
  refine ⟨?_, ?_, ?_⟩ <;> norm_num [condition, sum_abs]

/-- The precondition check of `SolverBase.adaptive_solve` exactly as written in
the source: `assert self.onDisk <= 1. or self.onDisk >= 0.`. -/
def onDisk_assert (f : ℚ) : Prop := f ≤ 1 ∨ 0 ≤ f

/-- C6: the assertion guarding the checkpoint fraction is a tautology (it uses
`or` where the intent is `and`), so it passes for every fraction; in
particular it passes at `f = 2`, which lies outside `[0, 1]`, and execution
proceeds to the checkpoint configuration instead of aborting. -/
theorem onDisk_assert_never_fires :
    (∀ f : ℚ, onDisk_assert f) ∧ onDisk_assert 2 ∧
      ¬ ((0 : ℚ) ≤ 2 ∧ (2 : ℚ) ≤ 1) := by
  refine ⟨fun f => ?_, Or.inr (by norm_num), by norm_num⟩
  unfold onDisk_assert
  by_cases h : 0 ≤ f
  · exact Or.inr h
  · exact Or.inl (by linarith [not_le.mp h])

/-- The `snaps_on_disk` argument passed to `adj_checkpointing` in
`SolverBase.adaptive_solve`: `int(self.onDisk * N)`. -/
def snaps_on_disk (f : ℚ) (N : ℕ) : ℤ := pyint (f * N)

/-- The `snaps_in_ram` argument passed to `adj_checkpointing` in
`SolverBase.adaptive_solve`: `int((1. - self.onDisk) * N)`. -/
def snaps_in_ram (f : ℚ) (N : ℕ) : ℤ := pyint ((1 - f) * N)

/-- Counterexample for C3: with `steps = 10` and `on_disk_fraction = 1/4` the
two snapshot counts are `2` and `7`, summing to `9`, not `10`. -/
theorem checkpoint_sum_counterexample :
    snaps_in_ram (1 / 4) 10 + snaps_on_disk (1 / 4) 10 ≠ 10 := by
  norm_num [snaps_in_ram, snaps_on_disk, pyint]

/-- Floors of a number and of its negation cancel exactly on integers and
otherwise sum to `-1`. -/
theorem floor_add_floor_neg (x : ℚ) :
    ⌊x⌋ + ⌊-x⌋ = if (⌊x⌋ : ℚ) = x then 0 else -1 := by
  by_cases h : (⌊x⌋ : ℚ) = x
  · rw [if_pos h]
    have h2 : ⌊-x⌋ = -⌊x⌋ := by
      rw [show -x = ((-⌊x⌋ : ℤ) : ℚ) by push_cast; linarith, Int.floor_intCast]
    omega
  · rw [if_neg h]
    have hle : (⌊x⌋ : ℚ) ≤ x := Int.floor_le x
    have hlt : (⌊x⌋ : ℚ) < x := lt_of_le_of_ne hle h
    have hlt2 : x < ⌊x⌋ + 1 := Int.lt_floor_add_one x
    have h2 : ⌊-x⌋ = -⌊x⌋ - 1 := by
      rw [Int.floor_eq_iff]
      push_cast
      constructor <;> linarith
    omega

/-- C3 (amended): for `0 ≤ f ≤ 1` the configured budget is
`snaps_on_disk = ⌊f · N⌋` and `snaps_in_ram = ⌊(1 - f) · N⌋` (each count is
floored separately); the two sum to `N` exactly when `f · N` is an integer,
and to `N - 1` otherwise. -/
theorem checkpoint_budget (f : ℚ) (N : ℕ) (h0 : 0 ≤ f) (h1 : f ≤ 1) :
    snaps_on_disk f N = ⌊f * (N : ℚ)⌋ ∧
      snaps_in_ram f N = ⌊(1 - f) * (N : ℚ)⌋ ∧
      (snaps_in_ram f N + snaps_on_disk f N = N ↔ (⌊f * (N : ℚ)⌋ : ℚ) = f * N) := by
  have hN : (0 : ℚ) ≤ (N : ℚ) := Nat.cast_nonneg N
  have hx0 : 0 ≤ f * (N : ℚ) := mul_nonneg h0 hN
  have h1x : 0 ≤ (1 - f) * (N : ℚ) := mul_nonneg (by linarith) hN
  unfold snaps_on_disk snaps_in_ram pyint
  rw [if_pos hx0, if_pos h1x]
  refine ⟨rfl, rfl, ?_⟩
  have hrw : (1 - f) * (N : ℚ) = -(f * (N : ℚ)) + ((N : ℤ) : ℚ) := by
    push_cast; ring
  rw [hrw, Int.floor_add_int]
  have hsum := floor_add_floor_neg (f * (N : ℚ))
  by_cases h : (⌊f * (N : ℚ)⌋ : ℚ) = f * (N : ℚ)
  · simp only [if_pos h] at hsum
    exact ⟨fun _ => h, fun _ => by omega⟩
  · simp only [if_neg h] at hsum
    exact ⟨fun hs => absurd h (by omega), fun hc => absurd hc h⟩

/-- Witness for C3 (amended) at the spec's example `steps = 10`,
`on_disk_fraction = 3/10`, where the split is `(7, 3)` and the sum is `10`. -/
theorem checkpoint_budget_witness :
    (0 : ℚ) ≤ 3 / 10 ∧ (3 / 10 : ℚ) ≤ 1 ∧
      (snaps_on_disk (3 / 10) 10 = ⌊(3 / 10 : ℚ) * (10 : ℚ)⌋ ∧
        snaps_in_ram (3 / 10) 10 = ⌊(1 - 3 / 10 : ℚ) * (10 : ℚ)⌋ ∧
        (snaps_in_ram (3 / 10) 10 + snaps_on_disk (3 / 10) 10 = 10 ↔
          (⌊(3 / 10 : ℚ) * (10 : ℚ)⌋ : ℚ) = (3 / 10 : ℚ) * 10)) ∧
      snaps_on_disk (3 / 10) 10 = 3 ∧ snaps_in_ram (3 / 10) 10 = 7 :=
  ⟨by norm_num, by norm_num, checkpoint_budget (3 / 10) 10 (by norm_num) (by norm_num),
    by norm_num [snaps_on_disk, pyint], by norm_num [snaps_in_ram, pyint]⟩

/-- The while loop of `SolverBase.adaptivity`, running while
`i <= maxAdapts and COND > adaptTOL`.  The loop body solves, computes the new
metric `cond i`, refines, and increments `i`; on exit a warning is surfaced
exactly when `i > maxAdapts and COND > adaptTOL`.  The second argument is the
number of loop entries still permitted by `i <= maxAdapts`, namely
`maxAdapts + 1 - i`, which makes the recursion structural; the result is the
number of refinement cycles executed, paired with the warning flag. -/
def adaptivity_loop_aux (tol : ℚ) (cond : ℕ → ℚ) : ℕ → ℕ → ℚ → ℕ × Bool
  | _, 0, c => (0, decide (tol < c))
  | i, j + 1, c =>
    if tol < c then
      let r := adaptivity_loop_aux tol cond (i + 1) j (cond i)
      (r.1 + 1, r.2)
    else (0, false)

/-- `SolverBase.adaptivity`'s loop started as in the source: `i = 0` and
`COND = 1`. -/
def adaptivity_run (maxAdapts : ℕ) (tol : ℚ) (cond : ℕ → ℚ) : ℕ × Bool :=
  adaptivity_loop_aux tol cond 0 (maxAdapts + 1) 1

/-- When every computed metric stays above the tolerance, the loop uses up all
its permitted entries and exits with the warning raised. -/
theorem adaptivity_loop_aux_all (tol : ℚ) (cond : ℕ → ℚ)
    (h : ∀ n, tol < cond n) :
    ∀ (j i : ℕ) (c : ℚ), tol < c →
      adaptivity_loop_aux tol cond i j c = (j, true) := by
  intro j
  induction j with
  | zero =>
    intro i c hc
    simp [adaptivity_loop_aux, hc]
  | succ j ih =>
    intro i c hc
    simp only [adaptivity_loop_aux, if_pos hc, ih (i + 1) (cond i) (h i)]

/-- Counterexample for C2: with `max_adaptations = 3`, tolerance `10^(-6)` and
a stopping metric that is constantly `1`, the loop performs `4` refinement
cycles, not `3`. -/
theorem adaptivity_iterations_counterexample :
    (adaptivity_run 3 (1 / 1000000) (fun _ => 1)).1 ≠ 3 := by
  have h := adaptivity_loop_aux_all (1 / 1000000) (fun _ => 1)
    (fun _ => by norm_num) 4 0 1 (by norm_num)
  unfold adaptivity_run
  rw [show (3 : ℕ) + 1 = 4 from rfl, h]
  norm_num

/-- C2 (amended): if the stopping metric never meets the tolerance (and the
tolerance is below the loop's initial metric value `1`), the adaptive loop
with `max_adaptations = 3` performs exactly `4` refinement cycles — one per
`iteration = 0, 1, 2, 3` admitted by the guard `iteration ≤ max_adaptations` —
then exits non-fatally, returning with the reached-max-iterations warning
raised. -/
theorem adaptivity_max_iterations (tol : ℚ) (cond : ℕ → ℚ)
    (h1 : tol < 1) (h : ∀ n, tol < cond n) :
    adaptivity_run 3 tol cond = (4, true) := by
  unfold adaptivity_run
  rw [show (3 : ℕ) + 1 = 4 from rfl]
  exact adaptivity_loop_aux_all tol cond h 4 0 1 h1

/-- Witness for C2 (amended) at tolerance `10^(-6)` and constant metric `1`. -/
theorem adaptivity_max_iterations_witness :
    (1 / 1000000 : ℚ) < 1 ∧ (∀ n : ℕ, (1 / 1000000 : ℚ) < (fun _ : ℕ => (1 : ℚ)) n) ∧
      adaptivity_run 3 (1 / 1000000) (fun _ => 1) = (4, true) :=
  ⟨by norm_num, fun _ => by norm_num,
    adaptivity_max_iterations (1 / 1000000) (fun _ => 1) (by norm_num)
      (fun _ => by norm_num)⟩

/-- The vector `gamma = abs(ei.vector().array())` of `SolverBase.adaptive_refine`. -/
def gamma_of (ei : List ℚ) : List ℚ := ei.map (fun x => |x|)

/-- The marking count `adapt_n = int(len(gamma) * self.adaptRatio - 1)` of
`SolverBase.adaptive_refine` (Python `int` truncates toward zero). -/
def adapt_n (cells : ℕ) (af : ℚ) : ℤ := pyint ((cells : ℚ) * af - 1)

/-- Python list indexing, including the negative-index convention. -/
def pyindex (l : List ℚ) (n : ℤ) : ℚ :=
  if 0 ≤ n then l.getD n.toNat 0 else l.getD (l.length - (-n).toNat) 0

/-- The threshold `gamma_0 = sorted(gamma, reverse=True)[adapt_n]` of
`SolverBase.adaptive_refine`: entry `adapt_n` of the descending sort. -/
def gamma_0 (ei : List ℚ) (af : ℚ) : ℚ :=
  pyindex (List.insertionSort (fun a b => a ≥ b) (gamma_of ei)) (adapt_n ei.length af)

/-- The marker assigned to cell `c`:
`cell_markers[c] = gamma[c.index()] > gamma_0`. -/
def cell_marked (ei : List ℚ) (af : ℚ) (c : ℕ) : Bool :=
  decide ((gamma_of ei).getD c 0 > gamma_0 ei af)

/-- Mapping absolute value commutes with position lookup. -/
theorem getD_map_abs : ∀ (l : List ℚ) (c : ℕ),
    (l.map (fun x => |x|)).getD c 0 = |l.getD c 0|
  | [], _ => by simp
  | a :: l, 0 => by simp
  | a :: l, c + 1 => by simpa using getD_map_abs l c

/-- Counterexample for C4: with `cell_count = 5` and `adapt_ratio = 1/10` the
code's `int(5 · (1/10) - 1)` truncates `-1/2` toward zero giving `0`, while
the claimed `floor(5 · (1/10)) - 1` is `-1`. -/
theorem adapt_n_counterexample :
    adapt_n 5 (1 / 10) ≠ ⌊(5 : ℚ) * (1 / 10)⌋ - 1 := by
  norm_num [adapt_n, pyint]

/-- C4 (amended): `adaptive_refine` computes
`adapt_n = int(cell_count · adapt_ratio - 1)` with truncation toward zero,
which equals `floor(cell_count · adapt_ratio) - 1` whenever
`cell_count · adapt_ratio ≥ 1`; `gamma_0` is entry `adapt_n` of the
descending sort of the absolute errors, and exactly the cells whose absolute
error strictly exceeds `gamma_0` are marked; on `[5, 1, 4, 2, 3]` with
`adapt_ratio = 2/5`, `gamma_0 = 4` and exactly the one cell with value `5` is
marked. -/
theorem adaptive_refine_spec :
    (∀ (ei : List ℚ) (af : ℚ), 1 ≤ (ei.length : ℚ) * af →
        adapt_n ei.length af = ⌊(ei.length : ℚ) * af⌋ - 1 ∧
        ∀ c : ℕ, cell_marked ei af c = true ↔ |ei.getD c 0| > gamma_0 ei af) ∧
      gamma_0 [5, 1, 4, 2, 3] (2 / 5) = 4 ∧
      ((List.range 5).filter (fun c => cell_marked [5, 1, 4, 2, 3] (2 / 5) c)).length = 1 := by
  refine ⟨fun ei af h => ⟨?_, fun c => ?_⟩, ?_, ?_⟩
  · unfold adapt_n pyint
    rw [if_pos (by linarith)]
    rw [show (ei.length : ℚ) * af - 1 = (ei.length : ℚ) * af - ((1 : ℤ) : ℚ) by norm_num,
      Int.floor_sub_int]
  · rw [show cell_marked ei af c =
        decide ((gamma_of ei).getD c 0 > gamma_0 ei af) from rfl, decide_eq_true_eq,
      show gamma_of ei = ei.map (fun x => |x|) from rfl, getD_map_abs]
  · norm_num [gamma_0, gamma_of, adapt_n, pyint, pyindex, List.insertionSort,
      List.orderedInsert]
  · have hg : gamma_0 [5, 1, 4, 2, 3] (2 / 5) = 4 := by
      norm_num [gamma_0, gamma_of, adapt_n, pyint, pyindex, List.insertionSort,
        List.orderedInsert]
    norm_num [List.range_succ, cell_marked, hg, gamma_of]

/-- Witness for C4 (amended) at the spec's example `[5, 1, 4, 2, 3]`,
`adapt_ratio = 2/5`. -/
theorem adaptive_refine_spec_witness :
    1 ≤ ((([5, 1, 4, 2, 3] : List ℚ).length : ℚ) * (2 / 5)) ∧
      adapt_n ([5, 1, 4, 2, 3] : List ℚ).length (2 / 5) =
        ⌊(([5, 1, 4, 2, 3] : List ℚ).length : ℚ) * (2 / 5)⌋ - 1 :=
  ⟨by norm_num, (adaptive_refine_spec.1 [5, 1, 4, 2, 3] (2 / 5) (by norm_num)).1⟩

/-- The zero dof-vector, the initial value of the `Function(Z)` error
indicator. -/
def zvec : ℕ → ℚ := fun _ => 0

/-- `SolverBase.build_error_indicators`: states and the indicator field are
dof vectors `ℕ → ℚ`; `asm` abstracts
`assemble(weak_residual(..., wtape_theta, wtape[i], wtape[i+1], z*phi[i],
ei_mode=True)).array()` of the Problem collaborator, `asmSteady` the
steady-state variant `assemble(weak_residual(..., wtape[0], z*phi[0],
ei_mode=True)).array()`.  In the non-steady branch the loop body performs
`ei.vector()[:] += ...` for `i` in `range(len(wtape) - 1)` with
`wtape_theta = theta*wtape[i] + (1-theta)*wtape[i+1]`; in the steady branch a
single `ei.vector()[:] = ...` assignment is made. -/
def build_error_indicators (steady : Bool) (theta : ℚ)
    (asm : (ℕ → ℚ) → (ℕ → ℚ) → (ℕ → ℚ) → (ℕ → ℚ) → ℕ → ℚ)
    (asmSteady : (ℕ → ℚ) → (ℕ → ℚ) → ℕ → ℚ)
    (wtape phi : List (ℕ → ℚ)) : ℕ → ℚ :=
  if steady then asmSteady (wtape.getD 0 zvec) (phi.getD 0 zvec)
  else
    (List.range (wtape.length - 1)).foldl
      (fun ei i => fun j =>
        ei j + asm
          (fun x => theta * wtape.getD i zvec x + (1 - theta) * wtape.getD (i + 1) zvec x)
          (wtape.getD i zvec) (wtape.getD (i + 1) zvec) (phi.getD i zvec) j)
      zvec

/-- Evaluating a left fold of pointwise additions at one index gives the
starting value plus the sum of the contributions there. -/
theorem foldl_fun_add_sum (F : ℕ → ℕ → ℚ) :
    ∀ (n : ℕ) (g : ℕ → ℚ) (j : ℕ),
      ((List.range n).foldl (fun ei i => fun q => ei q + F i q) g) j =
        g j + ∑ i ∈ Finset.range n, F i j := by
  intro n
  induction n with
  | zero => intro g j; simp
  | succ n ih =>
    intro g j
    rw [List.range_succ, List.foldl_append]
    simp only [List.foldl_cons, List.foldl_nil, ih, Finset.sum_range_succ]
    ring

/-- C5: the non-steady branch of `build_error_indicators` accumulates — the
field at each cell is the sum, over every consecutive pair `(i, i+1)` of
reverse-ordered tape states, of the contribution assembled at the theta
interpolation `theta*wtape[i] + (1-theta)*wtape[i+1]`; the steady branch is a
single assembly with the single dual state, replacing the field. -/
theorem build_error_indicators_spec :
    ∀ (theta : ℚ) (asm : (ℕ → ℚ) → (ℕ → ℚ) → (ℕ → ℚ) → (ℕ → ℚ) → ℕ → ℚ)
      (asmSteady : (ℕ → ℚ) → (ℕ → ℚ) → ℕ → ℚ) (wtape phi : List (ℕ → ℚ)) (j : ℕ),
      build_error_indicators false theta asm asmSteady wtape phi j =
        (∑ i ∈ Finset.range (wtape.length - 1),
          asm (fun x => theta * wtape.getD i zvec x + (1 - theta) * wtape.getD (i + 1) zvec x)
            (wtape.getD i zvec) (wtape.getD (i + 1) zvec) (phi.getD i zvec) j) ∧
      build_error_indicators true theta asm asmSteady wtape phi =
        asmSteady (wtape.getD 0 zvec) (phi.getD 0 zvec) := by
  intro theta asm asmSteady wtape phi j
  constructor
  · show ((List.range (wtape.length - 1)).foldl _ zvec) j = _
    rw [foldl_fun_add_sum
      (fun i q => asm
        (fun x => theta * wtape.getD i zvec x + (1 - theta) * wtape.getD (i + 1) zvec x)
        (wtape.getD i zvec) (wtape.getD (i + 1) zvec) (phi.getD i zvec) q)
      (wtape.length - 1) zvec j]
    show (0 : ℚ) + _ = _
    rw [zero_add]
  · rfl

/-- Witness for C5 at a concrete two-entry tape with `theta = 1/2`. -/
theorem build_error_indicators_witness :
    build_error_indicators false (1 / 2)
        (fun wth wc wp ph j => wth j + wc j + wp j + ph j)
        (fun w ph j => w j + ph j)
        [fun _ => 1, fun _ => 3] [fun _ => 5, fun _ => 7] 0 =
      ∑ i ∈ Finset.range 1,
        ((fun wth wc wp ph j => wth j + wc j + wp j + ph j)
          (fun x => (1 / 2 : ℚ) * ([fun _ => (1 : ℚ), fun _ => 3].getD i zvec) x
            + (1 - 1 / 2) * ([fun _ => (1 : ℚ), fun _ => 3].getD (i + 1) zvec) x)
          ([fun _ => (1 : ℚ), fun _ => 3].getD i zvec)
          ([fun _ => (1 : ℚ), fun _ => 3].getD (i + 1) zvec)
          ([fun _ => (5 : ℚ), fun _ => 7].getD i zvec) 0) :=
  (build_error_indicators_spec (1 / 2)
    (fun wth wc wp ph j => wth j + wc j + wp j + ph j)
    (fun w ph j => w j + ph j)
    [fun _ => 1, fun _ => 3] [fun _ => 5, fun _ => 7] 0).1

/-- One tape record: the variable name the backend annotated and the
`timestep` attribute of the adjoint variable. -/
structure TapeVar where
  vname : String
  timestep : ℤ

/-- The `(timestep, iteration)` bookkeeping of the reverse walk in
`SolverBase.compute_dual`: starting from `timestep = None` and
`iteration = 0`, each adjoint variable named `'w'` increments `iteration`
when its `timestep` equals the tracked one and resets it to `0` otherwise,
then updates the tracked `timestep`; other variables are skipped.  Returns
the `(timestep, iteration)` pair reconstructed for each processed entry, in
walk order. -/
def dual_pairs (tsPrev : Option ℤ) (iter : ℕ) : List TapeVar → List (ℤ × ℕ)
  | [] => []
  | v :: rest =>
    if v.vname = "w" then
      let iter2 := if tsPrev = some v.timestep then iter + 1 else 0
      (v.timestep, iter2) :: dual_pairs (some v.timestep) iter2 rest
    else dual_pairs tsPrev iter rest

/-- The relation the claim states between consecutive reconstructed pairs:
equal timesteps increment the iteration, a changed timestep resets it. -/
def iter_rel (p q : ℤ × ℕ) : Prop :=
  (q.1 = p.1 → q.2 = p.2 + 1) ∧ (q.1 ≠ p.1 → q.2 = 0)

/-- The first pair produced after the tracked timestep is `some ts` carries
iteration `iter + 1` when its timestep is `ts` and `0` otherwise. -/
theorem dual_pairs_head (l : List TapeVar) :
    ∀ (ts : ℤ) (iter : ℕ) (q : ℤ × ℕ),
      (dual_pairs (some ts) iter l).head? = some q →
      (q.1 = ts → q.2 = iter + 1) ∧ (q.1 ≠ ts → q.2 = 0) := by
  induction l with
  | nil => intro ts iter q h; simp [dual_pairs] at h
  | cons v rest ih =>
    intro ts iter q h
    by_cases hv : v.vname = "w"
    · rw [dual_pairs, if_pos hv] at h
      simp only [List.head?_cons, Option.some_inj] at h
      subst h
      by_cases hts : v.timestep = ts
      · subst hts; simp
      · constructor
        · intro he; exact absurd he hts
        · intro _
          rw [if_neg (fun hc : ts = v.timestep => hts hc.symm)]
    · rw [dual_pairs, if_neg hv] at h
      exact ih ts iter q h

/-- Consecutive pairs produced by the reverse walk always satisfy
`iter_rel`, whatever the tracked state. -/
theorem dual_pairs_chain (l : List TapeVar) :
    ∀ (tsPrev : Option ℤ) (iter : ℕ),
      List.Chain' iter_rel (dual_pairs tsPrev iter l) := by
  induction l with
  | nil => intro tsPrev iter; simp [dual_pairs]
  | cons v rest ih =>
    intro tsPrev iter
    by_cases hv : v.vname = "w"
    · rw [dual_pairs, if_pos hv]
      apply List.chain'_cons'.mpr
      refine ⟨?_, ih _ _⟩
      intro q hq
      have h := dual_pairs_head rest v.timestep
        (if tsPrev = some v.timestep then iter + 1 else 0) q hq
      exact ⟨h.1, h.2⟩
    · rw [dual_pairs, if_neg hv]
      exact ih tsPrev iter

/-- C9: during the reverse tape walk of `compute_dual` every two consecutive
reconstructed `(timestep, iteration)` pairs satisfy: the iteration increments
when the timestep repeats and resets to `0` when it changes; and on the
synthetic tape with two primal entries at timestep `1` followed by one at
timestep `2` the reconstructed sequence is `(1,0), (1,1), (2,0)`. -/
theorem compute_dual_bookkeeping :
    (∀ (tape : List TapeVar), List.Chain' iter_rel (dual_pairs none 0 tape)) ∧
      dual_pairs none 0 [⟨"w", 1⟩, ⟨"w", 1⟩, ⟨"w", 2⟩] = [(1, 0), (1, 1), (2, 0)] := by
  constructor
  · intro tape; exact dual_pairs_chain tape none 0
  · decide

/-- The primal time loop of `SolverBase.timeStepper`:
`while t < T - k / 2.: t += k; ...solve...`.  Returns the number of per-step
solves executed and the final time; the loop body is entered only while the
guard holds (the `0 < k` conjunct makes the recursion well founded and is
implied by the source's adjusted positive step). -/
def stepLoop (T k t : ℚ) : ℕ × ℚ :=
  if h : t < T - k / 2 ∧ 0 < k then
    let r := stepLoop T k (t + k)
    (r.1 + 1, r.2)
  else (0, t)
termination_by (⌈(T - k / 2 - t) / k⌉).toNat
decreasing_by
  have hk := h.2
  have ht := h.1
  have hpos : (0 : ℚ) < (T - k / 2 - t) / k := div_pos (by linarith) hk
  have h1 : (0 : ℤ) < ⌈(T - k / 2 - t) / k⌉ := Int.ceil_pos.mpr hpos
  have h2 : (T - k / 2 - (t + k)) / k = (T - k / 2 - t) / k - 1 := by
    field_simp
    ring
  rw [h2, Int.ceil_sub_one]
  omega

/-- When the interval ahead of `t` is exactly `N` steps, the loop runs `N`
times and finishes exactly at `T`. -/
theorem stepLoop_exact (T k : ℚ) (hk : 0 < k) :
    ∀ (N : ℕ) (t : ℚ), T - t = N * k → stepLoop T k t = (N, T) := by
  intro N
  induction N with
  | zero =>
    intro t ht
    rw [stepLoop, dif_neg]
    · congr 1
      push_cast at ht
      linarith
    · rintro ⟨hlt, -⟩
      push_cast at ht
      linarith
  | succ n ih =>
    intro t ht
    push_cast at ht
    have hguard : t < T - k / 2 := by nlinarith [Nat.cast_nonneg (α := ℚ) n]
    rw [stepLoop, dif_pos ⟨hguard, hk⟩]
    have ht2 : T - (t + k) = (n : ℚ) * k := by linarith
    rw [ih (t + k) ht2]

/-- C8: for `T > t0` and an adjusted step `k > 0` that evenly divides
`T - t0`, the primal time loop terminates, executes exactly
`round((T - t0) / k)` solve steps, and its final time equals `T` exactly. -/
theorem timeStepper_spec (t0 T k : ℚ) (N : ℕ) (hT : t0 < T) (hk : 0 < k)
    (hN : T - t0 = N * k) :
    (stepLoop T k t0).1 = round ((T - t0) / k) ∧ (stepLoop T k t0).2 = T := by
  rw [stepLoop_exact T k hk N t0 hN]
  refine ⟨?_, rfl⟩
  rw [hN, mul_div_cancel_right₀ _ (ne_of_gt hk)]
  exact (round_natCast N).symm

/-- Witness for C8 at `t0 = 0`, `T = 1`, `k = 1/4`: four even steps ending
exactly at `T = 1`. -/
theorem timeStepper_spec_witness :
    (0 : ℚ) < 1 ∧ (0 : ℚ) < 1 / 4 ∧ (1 : ℚ) - 0 = (4 : ℕ) * (1 / 4) ∧
      ((stepLoop 1 (1 / 4) 0).1 = round (((1 : ℚ) - 0) / (1 / 4)) ∧
        (stepLoop 1 (1 / 4) 0).2 = 1) :=
  ⟨by norm_num, by norm_num, by norm_num,
    timeStepper_spec 0 1 (1 / 4) 4 (by norm_num) (by norm_num) (by norm_num)⟩

end ASP
